import Mathlib

/-!
Verification of the teleecho streaming relay pipeline
(`src/teleecho/teleecho.rs`) against its natural-language specification.

Rust `String` values are modelled as `List Char` (Rust's
`String::chars().count()` is then `List.length`, matching the
codepoint-counting the code performs).  The shared
`VecDeque<MessageBuffer>` is modelled as a `List MessageBuffer` whose
head is the front of the deque.  The mpsc channel is modelled as the
list of events sent on it.  Network calls are modelled explicitly: each
dispatching function returns, besides its state update, the list of
network calls it issued, and takes the network's reply (`some` for `Ok`,
`none` for `Err`) as a parameter.
-/

namespace Teleecho

/-- `MessageBuffer` from teleecho.rs (lines 14-21): a segment of input,
tagged by whether it was preceded by a carriage return. -/
inductive MessageBuffer where
  | CarriageReturn (s : List Char)
  | Newline (s : List Char)
deriving DecidableEq

/-- `BufferChangeEvent` from teleecho.rs (lines 25-29): the events sent
from the processor to the sender thread. -/
inductive BufferChangeEvent where
  | NewElement
  | Kill
deriving DecidableEq

/-- The text carried by a segment. -/
def textOf : MessageBuffer → List Char
  | MessageBuffer.CarriageReturn s => s
  | MessageBuffer.Newline s => s

/-- The `new_elem` computation of `append_to_send_buffer` (lines 299-302):
keep the popped element's variant, replace its text. -/
def withText : MessageBuffer → List Char → MessageBuffer
  | MessageBuffer.CarriageReturn _, s => MessageBuffer.CarriageReturn s
  | MessageBuffer.Newline _, s => MessageBuffer.Newline s

/-- The queue mutation performed by `TeleechoProcessor::append_to_send_buffer`
(lines 287-305) while the mutex is held: an empty queue or a `Newline`
segment is pushed at the back; a `CarriageReturn` segment arriving at a
non-empty queue replaces the text of the last element, keeping that
element's variant.  (The `none` arm of `getLast?` is unreachable: the
source `pop_back().unwrap()` runs only when `len() > 0`.) -/
def append_to_send_buffer (queue : List MessageBuffer) (msg : MessageBuffer) :
    List MessageBuffer :=
  if queue.length = 0 then queue ++ [msg]
  else
    match msg with
    | MessageBuffer.Newline s => queue ++ [MessageBuffer.Newline s]
    | MessageBuffer.CarriageReturn s =>
        match queue.getLast? with
        | some last_elem => queue.dropLast ++ [withText last_elem s]
        | none => queue ++ [MessageBuffer.CarriageReturn s]

/-- The `while` loop of `TeleechoSender::combine_messages` (lines 128-151):
merge further `Newline` segments into `message` (tracking the running
codepoint count `message_length` as the source does) until the queue
empties or the next `Newline` would push the combined length past the
cap, in which case it is pushed back at the front.  A popped
`CarriageReturn` falls through the `if let` without any action: it is
dropped and the loop continues. -/
def combineLoop : List MessageBuffer → List Char → Nat → List Char × List MessageBuffer
  | [], message, _ => (message, [])
  | MessageBuffer.Newline msg :: rest, message, message_length =>
      if msg.length + message_length + 1 ≥ 4096 then
        (message, MessageBuffer.Newline msg :: rest)
      else
        combineLoop rest (message ++ '\n' :: msg) (message_length + (msg.length + 1))
  | MessageBuffer.CarriageReturn _ :: rest, message, message_length =>
      combineLoop rest message message_length

/-- `TeleechoSender::combine_messages` (lines 119-157): pop the front
segment; a `CarriageReturn` is returned unmerged, a `Newline` enters the
merge loop.  Returns the batch together with the remaining queue
(`none` when the queue was empty; the source only calls this under a
`len() > 0` guard). -/
def combine_messages : List MessageBuffer → Option (MessageBuffer × List MessageBuffer)
  | [] => none
  | MessageBuffer.CarriageReturn msg :: rest =>
      some (MessageBuffer.CarriageReturn msg, rest)
  | MessageBuffer.Newline msg :: rest =>
      let r := combineLoop rest msg msg.length
      some (MessageBuffer.Newline r.1, r.2)

/-- The state of a `TeleechoProcessor` (lines 236-252): the input
accumulator and its tracked size, the shared message queue, the events
sent on the channel so far (modelling the `Sender` half), and whether
the join handle is still present (`handle: Option<JoinHandle>`). -/
structure ProcessorState where
  input_buffer : List Char
  input_buffer_size : Nat
  message_buffer : List MessageBuffer
  signals : List BufferChangeEvent
  handle : Bool
deriving DecidableEq

/-- The state built by `TeleechoProcessor::create` (lines 261-267). -/
def initialState : ProcessorState :=
  { input_buffer := [], input_buffer_size := 0, message_buffer := [],
    signals := [], handle := true }

/-- One iteration of the `for ch in self.input_buffer.chars()` loop of
`convert_to_message` (lines 344-350): a `'\r'` sets the flag, any other
character is pushed onto the message text. -/
def scanStep (acc : List Char × Bool) (c : Char) : List Char × Bool :=
  if c = '\r' then (acc.1, true) else (acc.1 ++ [c], acc.2)

/-- The whole scan of the accumulator in `convert_to_message`. -/
def scanBuffer (l : List Char) : List Char × Bool :=
  l.foldl scanStep ([], false)

/-- `TeleechoProcessor::convert_to_message` (lines 335-365): scan the
accumulator stripping `'\r'` and detecting whether one occurred, tag the
resulting segment accordingly, hand it to `append_to_send_buffer` (which
also sends one `NewElement` on the channel, line 307), and clear the
accumulator and its size counter. -/
def convert_to_message (st : ProcessorState) : ProcessorState :=
  let scanned := scanBuffer st.input_buffer
  let message := if scanned.2 then MessageBuffer.CarriageReturn scanned.1
                 else MessageBuffer.Newline scanned.1
  { input_buffer := [], input_buffer_size := 0,
    message_buffer := append_to_send_buffer st.message_buffer message,
    signals := st.signals ++ [BufferChangeEvent.NewElement],
    handle := st.handle }

/-- `TeleechoProcessor::append_to_input_buffer` (lines 311-330): flush
on `'\n'` or `'\r'` before handling the character, append every
character except `'\n'`, and flush again if the accumulator size reached
4096 after appending. -/
def append_to_input_buffer (st : ProcessorState) (c : Char) : ProcessorState :=
  let st := if c = '\n' ∨ c = '\r' then convert_to_message st else st
  let st := if c ≠ '\n' then
      { st with input_buffer := st.input_buffer ++ [c],
                input_buffer_size := st.input_buffer_size + 1 }
    else st
  if st.input_buffer_size ≥ 4096 then convert_to_message st else st

/-- Feeding a character sequence one character at a time, as `main` does
with the piped input. -/
def feedAll (st : ProcessorState) (cs : List Char) : ProcessorState :=
  cs.foldl append_to_input_buffer st

/-- `TeleechoProcessor::close` (lines 273-281): if the join handle is
still present, send `Kill` and join (the returned `Bool` records whether
a join was performed); otherwise do nothing. -/
def close (st : ProcessorState) : ProcessorState × Bool :=
  if st.handle then
    ({ st with handle := false, signals := st.signals ++ [BufferChangeEvent.Kill] }, true)
  else (st, false)

/-- A `telegram_bot::Message` as the sender uses it: message id, chat id
and its `msg` field, which is `some text` for `MessageType::Text` and
`none` for any other message type. -/
structure TgMessage where
  message_id : Nat
  chat_id : Int
  msg : Option (List Char)
deriving DecidableEq

/-- A call issued to the network layer: `api.send_message` (line 164) or
`api.edit_message_text` (line 216) with the arguments the code passes. -/
inductive NetCall where
  | sendMsg (user_id : Int) (text : List Char)
  | editMsg (chat_id : Int) (message_id : Nat) (text : List Char)
deriving DecidableEq

/-- `TeleechoSender::send` (lines 162-169): if the text is non-empty,
issue a send call; on `Ok(o)` store `o` as the last sent message, on
`Err` leave the handle as it was.  `result` is the network's reply
(`some o` for `Ok(o)`, `none` for `Err`). -/
def send (last_sent_message : Option TgMessage) (user_id : Int) (s : List Char)
    (result : Option TgMessage) : Option TgMessage × List NetCall :=
  if s.length > 0 then
    match result with
    | some o => (some o, [NetCall.sendMsg user_id s])
    | none => (last_sent_message, [NetCall.sendMsg user_id s])
  else (last_sent_message, [])

/-- Rust `str::split("\n")` on the modelled text: always returns at
least one (possibly empty) part. -/
def splitOnNl : List Char → List (List Char)
  | [] => [[]]
  | c :: cs =>
      if c = '\n' then [] :: splitOnNl cs
      else
        match splitOnNl cs with
        | [] => [[c]]
        | p :: ps => (c :: p) :: ps

/-- `TeleechoSender::override_last` (lines 174-233): for non-empty text,
take the last sent message; if its stored text equals the new text,
restore it and do nothing; otherwise split the stored text on `'\n'`,
drop the last part, append the new text, rejoin and issue an edit call.
On `Ok(o)` store `o`, on `Err` restore the previous message.
`editResult` is the network's reply to the edit call. -/
def override_last (last_sent_message : Option TgMessage) (s : List Char)
    (editResult : Option TgMessage) : Option TgMessage × List NetCall :=
  if s.length > 0 then
    match last_sent_message with
    | some m =>
        let is_same_message :=
          match m.msg with
          | some t => decide (t = s)
          | none => false
        if is_same_message then (some m, [])
        else
          let old_text := match m.msg with
            | some t => t
            | none => []
          let parts := splitOnNl old_text
          let parts := if parts.length > 0 then parts.dropLast else parts
          let parts := parts ++ [s]
          let final_message := List.intercalate ['\n'] parts
          match editResult with
          | some o => (some o, [NetCall.editMsg m.chat_id m.message_id final_message])
          | none => (some m, [NetCall.editMsg m.chat_id m.message_id final_message])
    | none => (none, [])
  else (last_sent_message, [])

/-- The outcome of one iteration of `send_loop` (lines 79-117). -/
structure StepResult where
  last_sent_message : Option TgMessage
  message_buffer : List MessageBuffer
  terminated : Bool
  calls : List NetCall
deriving DecidableEq

/-- One iteration of `TeleechoSender::send_loop` (lines 79-117), with
the real-time rate limiting (a sleep, lines 90-96) elided: `Kill`
terminates the loop; `NewElement` drains one batch from a non-empty
queue and dispatches it via `send` or `override_last`.  `netResult` is
the network's reply to whichever call is made. -/
def send_loop_step (last : Option TgMessage) (queue : List MessageBuffer)
    (user_id : Int) (event : BufferChangeEvent) (netResult : Option TgMessage) :
    StepResult :=
  match event with
  | BufferChangeEvent.Kill =>
      { last_sent_message := last, message_buffer := queue, terminated := true, calls := [] }
  | BufferChangeEvent.NewElement =>
      if queue.length > 0 then
        match combine_messages queue with
        | some (MessageBuffer.Newline msg, rest) =>
            let r := send last user_id msg netResult
            { last_sent_message := r.1, message_buffer := rest, terminated := false, calls := r.2 }
        | some (MessageBuffer.CarriageReturn msg, rest) =>
            let r := override_last last msg netResult
            { last_sent_message := r.1, message_buffer := rest, terminated := false, calls := r.2 }
        | none =>
            { last_sent_message := last, message_buffer := queue, terminated := false, calls := [] }
      else
        { last_sent_message := last, message_buffer := queue, terminated := false, calls := [] }

/-- Every segment queued in the pending buffer carries at most 4096
codepoints of text. -/
def QueueBounded (q : List MessageBuffer) : Prop :=
  ∀ mb ∈ q, (textOf mb).length ≤ 4096

/-- The processor invariant: the queue is bounded, the tracked size
matches the accumulator's length, and the accumulator holds at most
4095 characters between calls. -/
def Inv (st : ProcessorState) : Prop :=
  QueueBounded st.message_buffer ∧
  st.input_buffer.length = st.input_buffer_size ∧
  st.input_buffer_size ≤ 4095

/-! ## Claim theorems -/

/-- C1.  The claim mandates that a `CarriageReturn` segment popped while
merging `Newline` segments be re-inserted at the head of the queue,
stopping the merge, and never be discarded.  The code does the opposite:
on the queue `[Newline "a", CarriageReturn "b", Newline "c"]` it drops
`CarriageReturn "b"` entirely and keeps merging, returning the batch
`Newline "a\nc"` with an empty remaining queue — the re-queued behavior
would return `Newline "a"` with `[CarriageReturn "b", Newline "c"]`
left.  This theorem evaluates the code at that failing input. -/
theorem combine_messages_drops_midmerge_carriage_return :
    combine_messages [MessageBuffer.Newline ['a'], MessageBuffer.CarriageReturn ['b'],
        MessageBuffer.Newline ['c']]
      = some (MessageBuffer.Newline ['a', '\n', 'c'], []) ∧
    combine_messages [MessageBuffer.Newline ['a'], MessageBuffer.CarriageReturn ['b'],
        MessageBuffer.Newline ['c']]
      ≠ some (MessageBuffer.Newline ['a'],
          [MessageBuffer.CarriageReturn ['b'], MessageBuffer.Newline ['c']]) := by
  decide

/-- C2, counterexample.  The claim says every enqueued segment is
appended at the tail, growing the queue by one and leaving prior
elements unchanged.  A `CarriageReturn` segment arriving at the
non-empty queue `[Newline "a"]` instead replaces the last element: the
result is `[Newline "b"]`, of unchanged length, with the prior element
gone. -/
theorem append_to_send_buffer_replace_counterexample :
    append_to_send_buffer [MessageBuffer.Newline ['a']] (MessageBuffer.CarriageReturn ['b'])
      = [MessageBuffer.Newline ['b']] ∧
    ¬ ((append_to_send_buffer [MessageBuffer.Newline ['a']]
          (MessageBuffer.CarriageReturn ['b'])).length = 2 ∧
        (append_to_send_buffer [MessageBuffer.Newline ['a']]
          (MessageBuffer.CarriageReturn ['b'])).head? = some (MessageBuffer.Newline ['a'])) := by
  decide

/-- C2, amended.  Enqueuing a `Newline` segment — and enqueuing any
segment into an empty queue — appends it at the tail, leaving all
previously queued elements unchanged (hence growing the length by
exactly one); only a `CarriageReturn` into a non-empty queue deviates,
replacing the last element instead. -/
theorem append_to_send_buffer_appends_newline_at_tail :
    (∀ (q : List MessageBuffer) (s : List Char),
        append_to_send_buffer q (MessageBuffer.Newline s) = q ++ [MessageBuffer.Newline s]) ∧
    (∀ m : MessageBuffer, append_to_send_buffer [] m = [m]) := by
  constructor
  · intro q s
    unfold append_to_send_buffer
    split
    · rfl
    · rfl
  · intro m
    unfold append_to_send_buffer
    simp

/-- C3.  A `CarriageReturn(s)` segment enqueued while the queue is
non-empty removes the queue's last element and replaces it by a single
element carrying text `s` under the removed element's variant; the
length is unchanged and nothing is appended. -/
theorem append_to_send_buffer_carriage_return_replaces_last :
    ∀ (q : List MessageBuffer) (last : MessageBuffer) (s : List Char),
      append_to_send_buffer (q ++ [last]) (MessageBuffer.CarriageReturn s)
        = q ++ [withText last s] ∧
      (append_to_send_buffer (q ++ [last]) (MessageBuffer.CarriageReturn s)).length
        = (q ++ [last]).length := by
  intro q last s
  have hne : (q ++ [last]).length ≠ 0 := by simp
  have h : append_to_send_buffer (q ++ [last]) (MessageBuffer.CarriageReturn s)
      = q ++ [withText last s] := by
    unfold append_to_send_buffer
    rw [if_neg hne]
    simp [List.getLast?_concat]
  exact ⟨h, by simp [h]⟩

/-- C10.  A second `close` after a completed first call is a no-op: it
sends no further signal (in particular no `Kill`), performs no join, and
leaves the processor state unchanged. -/
theorem close_twice_noop :
    ∀ st : ProcessorState, close (close st).1 = ((close st).1, false) := by
  intro st
  by_cases h : st.handle
  · simp [close, h]
  · simp [close, h]

lemma send_err_preserves (last : Option TgMessage) (uid : Int) (s : List Char) :
    (send last uid s none).1 = last := by
  unfold send
  split <;> rfl

lemma override_last_err_preserves (last : Option TgMessage) (s : List Char) :
    (override_last last s none).1 = last := by
  unfold override_last
  split
  · cases last with
    | none => rfl
    | some m =>
        dsimp only
        split
        · rfl
        · rfl
  · rfl

/-- C7.  A failed network dispatch (`none` reply) leaves the
`SentMessageHandle` exactly as it was — a failed send keeps the previous
handle, a failed edit restores it — and the worker loop iteration on a
`NewElement` never terminates the worker, whatever the network replied. -/
theorem failed_dispatch_preserves_handle_and_continues :
    (∀ (last : Option TgMessage) (uid : Int) (s : List Char),
        (send last uid s none).1 = last) ∧
    (∀ (last : Option TgMessage) (s : List Char),
        (override_last last s none).1 = last) ∧
    (∀ (last : Option TgMessage) (q : List MessageBuffer) (uid : Int),
        (send_loop_step last q uid BufferChangeEvent.NewElement none).last_sent_message
          = last) ∧
    (∀ (last : Option TgMessage) (q : List MessageBuffer) (uid : Int)
        (r : Option TgMessage),
        (send_loop_step last q uid BufferChangeEvent.NewElement r).terminated = false) := by
  refine ⟨send_err_preserves, override_last_err_preserves, ?_, ?_⟩
  · intro last q uid
    unfold send_loop_step
    by_cases hq : q.length > 0
    · rw [if_pos hq]
      rcases h : combine_messages q with _ | ⟨mb, rest⟩
      · simp [h]
      · cases mb with
        | Newline msg => simp [h, send_err_preserves]
        | CarriageReturn msg => simp [h, override_last_err_preserves]
    · rw [if_neg hq]
  · intro last q uid r
    unfold send_loop_step
    by_cases hq : q.length > 0
    · rw [if_pos hq]
      rcases h : combine_messages q with _ | ⟨mb, rest⟩
      · simp [h]
      · cases mb with
        | Newline msg => simp [h]
        | CarriageReturn msg => simp [h]
    · rw [if_neg hq]

lemma splitOnNl_ne_nil (t : List Char) : splitOnNl t ≠ [] := by
  cases t with
  | nil => simp [splitOnNl]
  | cons c cs =>
      unfold splitOnNl
      split
      · simp
      · split <;> simp

lemma splitOnNl_no_newline (t : List Char) (h : '\n' ∉ t) : splitOnNl t = [t] := by
  induction t with
  | nil => rfl
  | cons c cs ih =>
      have hc : ¬ c = '\n' := fun hh => h (hh ▸ List.mem_cons_self _ _)
      have hcs : '\n' ∉ cs := fun hh => h (List.mem_cons_of_mem _ hh)
      unfold splitOnNl
      rw [if_neg hc, ih hcs]

lemma intercalate_singleton (x : List Char) : List.intercalate ['\n'] [x] = x := by
  simp [List.intercalate, List.intersperse]

/-- C5.  When a handle exists whose stored text `t` differs from the
non-empty override text `s`, the text submitted to the edit call is `t`
split on `'\n'`, with the last part removed, `s` appended as the new
final part, and the parts rejoined with `'\n'` — and that single edit
call is the only network call, aimed at the handle's chat and message
ids, whatever the network then replies. -/
theorem override_last_submits_rejoined_text (m : TgMessage) (t s : List Char)
    (r : Option TgMessage) (hm : m.msg = some t) (hts : t ≠ s) (hs : s ≠ []) :
    (override_last (some m) s r).2 =
      [NetCall.editMsg m.chat_id m.message_id
        (List.intercalate ['\n'] ((splitOnNl t).dropLast ++ [s]))] := by
  have hlen : s.length > 0 := List.length_pos.mpr hs
  have hd : decide (t = s) = false := decide_eq_false hts
  have hsp : (splitOnNl t).length > 0 := List.length_pos.mpr (splitOnNl_ne_nil t)
  cases r <;> simp [override_last, hlen, hm, hd, hsp]

/-- C5 witness: with stored text `"x\ny"` and override text `"z"` the
submitted text is `"x\nz"`, the claim's concrete instance. -/
theorem override_last_submits_rejoined_text_witness :
    (override_last (some (⟨0, 0, some ['x', '\n', 'y']⟩ : TgMessage)) ['z'] none).2
      = [NetCall.editMsg 0 0 ['x', '\n', 'z']] := by
  have h := override_last_submits_rejoined_text ⟨0, 0, some ['x', '\n', 'y']⟩
      ['x', '\n', 'y'] ['z'] none rfl (by decide) (by decide)
  rw [h]
  decide

/-- C6, counterexample.  The claim says two consecutive override calls
with the same non-empty text cause at most one edit call.  With a handle
storing the multi-line text `"x\ny"`, an override with `"z"` edits the
message to `"x\nz"`; the platform reports that text back, so the second
override with `"z"` compares `"z"` against `"x\nz"`, finds them
different, and issues a second (redundant) edit call: two edit calls
reach the network layer. -/
theorem override_last_second_call_edits_again :
    ¬ (((override_last (some (⟨0, 0, some ['x', '\n', 'y']⟩ : TgMessage)) ['z']
          (some (⟨0, 0, some ['x', '\n', 'z']⟩ : TgMessage))).2 ++
        (override_last (override_last (some (⟨0, 0, some ['x', '\n', 'y']⟩ : TgMessage)) ['z']
            (some (⟨0, 0, some ['x', '\n', 'z']⟩ : TgMessage))).1 ['z']
          (some (⟨0, 0, some ['x', '\n', 'z']⟩ : TgMessage))).2).length ≤ 1) := by
  decide

/-- C6, amended.  The second call skips the network only when the new
text equals the handle's *entire* stored text.  So when the stored text
`t` is a single line (no `'\n'`), the rejoined text submitted by the
first call is exactly `p`; if that edit succeeds and the platform
reports text `p` back, the second override with the same non-empty `p`
makes no network call, so at most one edit call reaches the network.
For multi-line stored text the second call issues a redundant edit (see
the counterexample). -/
theorem override_last_single_line_at_most_one_edit (m o : TgMessage) (t p : List Char)
    (r₂ : Option TgMessage) (hm : m.msg = some t) (hnl : '\n' ∉ t) (hp : p ≠ [])
    (ho : o.msg = some p) :
    (t ≠ p → (override_last (some m) p (some o)).2
        = [NetCall.editMsg m.chat_id m.message_id p]) ∧
    ((override_last (some m) p (some o)).2 ++
        (override_last (override_last (some m) p (some o)).1 p r₂).2).length ≤ 1 := by
  have hlen : p.length > 0 := List.length_pos.mpr hp
  by_cases htp : t = p
  · subst htp
    have h1 : override_last (some m) t (some o) = (some m, []) := by
      simp [override_last, hlen, hm]
    refine ⟨fun h => absurd rfl h, ?_⟩
    rw [h1]
    simp [override_last, hlen, hm]
  · have hd : decide (t = p) = false := decide_eq_false htp
    have hsp : splitOnNl t = [t] := splitOnNl_no_newline t hnl
    have hfirst : override_last (some m) p (some o)
        = (some o, [NetCall.editMsg m.chat_id m.message_id p]) := by
      simp [override_last, hlen, hm, hd, hsp, intercalate_singleton]
    refine ⟨fun _ => by rw [hfirst], ?_⟩
    rw [hfirst]
    simp [override_last, hlen, ho]

/-- C6 witness: single-line stored text `"y"`, override text `"z"`
twice, successful first edit reported back as `"z"`: at most one edit
call in total. -/
theorem override_last_single_line_at_most_one_edit_witness :
    ((override_last (some (⟨0, 0, some ['y']⟩ : TgMessage)) ['z']
        (some (⟨0, 0, some ['z']⟩ : TgMessage))).2 ++
      (override_last (override_last (some (⟨0, 0, some ['y']⟩ : TgMessage)) ['z']
          (some (⟨0, 0, some ['z']⟩ : TgMessage))).1 ['z'] none).2).length ≤ 1 :=
  (override_last_single_line_at_most_one_edit ⟨0, 0, some ['y']⟩ ⟨0, 0, some ['z']⟩
    ['y'] ['z'] none rfl (by decide) (by decide) rfl).2

lemma scanBuffer_eq (l : List Char) :
    scanBuffer l = (l.filter (fun c => decide (c ≠ '\r')), decide ('\r' ∈ l)) := by
  have h : ∀ (l : List Char) (acc : List Char) (cr : Bool),
      l.foldl scanStep (acc, cr)
        = (acc ++ l.filter (fun c => decide (c ≠ '\r')), cr || decide ('\r' ∈ l)) := by
    intro l
    induction l with
    | nil => intro acc cr; simp
    | cons c cs ih =>
        intro acc cr
        by_cases hc : c = '\r'
        · subst hc
          simp [List.foldl_cons, scanStep, ih]
        · have h1 : scanStep (acc, cr) c = (acc ++ [c], cr) := by simp [scanStep, hc]
          have h2 : List.filter (fun x => decide (x ≠ '\r')) (c :: cs)
              = c :: List.filter (fun x => decide (x ≠ '\r')) cs := by
            simp [List.filter_cons, hc]
          have h3 : decide ('\r' ∈ c :: cs) = decide ('\r' ∈ cs) := by
            apply decide_eq_decide.mpr
            simp [List.mem_cons, Ne.symm hc]
          rw [List.foldl_cons, h1, ih, h2, h3]
          simp
  simpa [scanBuffer] using h l [] false

lemma convert_to_message_size (st : ProcessorState) :
    (convert_to_message st).input_buffer_size = 0 := rfl

lemma convert_to_message_buffer (st : ProcessorState) :
    (convert_to_message st).input_buffer = [] := rfl

/-- C9.  A flush hands exactly one segment downstream: its text is the
accumulator's content with every `'\r'` removed, it is tagged
`CarriageReturn` exactly when the accumulator contained a `'\r'` and
`Newline` otherwise, exactly one `NewElement` is signalled, and the
accumulator and its size counter are left empty. -/
theorem convert_to_message_strips_cr_and_tags (st : ProcessorState) :
    convert_to_message st =
      { input_buffer := [], input_buffer_size := 0,
        message_buffer := append_to_send_buffer st.message_buffer
          (if '\r' ∈ st.input_buffer
            then MessageBuffer.CarriageReturn
                (st.input_buffer.filter (fun c => decide (c ≠ '\r')))
            else MessageBuffer.Newline
                (st.input_buffer.filter (fun c => decide (c ≠ '\r')))),
        signals := st.signals ++ [BufferChangeEvent.NewElement],
        handle := st.handle } := by
  simp only [convert_to_message, scanBuffer_eq]
  by_cases h : '\r' ∈ st.input_buffer
  · rw [if_pos (by simpa using h), if_pos h]
  · rw [if_neg (by simpa using h), if_neg h]

lemma append_to_input_buffer_nl (st : ProcessorState) :
    append_to_input_buffer st '\n' = convert_to_message st := by
  simp [append_to_input_buffer, convert_to_message_size]

lemma append_to_input_buffer_cr (st : ProcessorState) :
    append_to_input_buffer st '\r'
      = { convert_to_message st with input_buffer := ['\r'], input_buffer_size := 1 } := by
  simp [append_to_input_buffer, convert_to_message_size, convert_to_message_buffer]

lemma append_to_input_buffer_plain (st : ProcessorState) (c : Char)
    (h1 : c ≠ '\n') (h2 : c ≠ '\r') (h3 : st.input_buffer_size + 1 < 4096) :
    append_to_input_buffer st c
      = { st with input_buffer := st.input_buffer ++ [c],
                  input_buffer_size := st.input_buffer_size + 1 } := by
  have hor : ¬ (c = '\n' ∨ c = '\r') := by
    rintro (h | h)
    · exact h1 h
    · exact h2 h
  have hlt : ¬ (4095 ≤ st.input_buffer_size) := by omega
  simp [append_to_input_buffer, hor, h1, h2, hlt]

lemma append_to_input_buffer_forced (st : ProcessorState) (c : Char)
    (h1 : c ≠ '\n') (h2 : c ≠ '\r') (h3 : st.input_buffer_size + 1 ≥ 4096) :
    append_to_input_buffer st c
      = convert_to_message { st with input_buffer := st.input_buffer ++ [c],
                                     input_buffer_size := st.input_buffer_size + 1 } := by
  have hor : ¬ (c = '\n' ∨ c = '\r') := by
    rintro (h | h)
    · exact h1 h
    · exact h2 h
  have hge : 4095 ≤ st.input_buffer_size := by omega
  simp [append_to_input_buffer, hor, h1, h2, hge]

/-- C8.  Feeding one character `c` to the segmenter: a `'\n'` or `'\r'`
flushes the accumulator before `c` is handled; `c` is then appended to
the accumulator unless it is `'\n'`; and if, after appending, the
accumulator size reaches 4096, a flush is forced. -/
theorem append_to_input_buffer_flush_rules (st : ProcessorState) (c : Char) :
    (c = '\n' → append_to_input_buffer st c = convert_to_message st) ∧
    (c = '\r' → append_to_input_buffer st c
        = { convert_to_message st with input_buffer := ['\r'], input_buffer_size := 1 }) ∧
    (c ≠ '\n' → c ≠ '\r' → st.input_buffer_size + 1 < 4096 →
        append_to_input_buffer st c
          = { st with input_buffer := st.input_buffer ++ [c],
                      input_buffer_size := st.input_buffer_size + 1 }) ∧
    (c ≠ '\n' → c ≠ '\r' → st.input_buffer_size + 1 ≥ 4096 →
        append_to_input_buffer st c
          = convert_to_message { st with input_buffer := st.input_buffer ++ [c],
                                         input_buffer_size := st.input_buffer_size + 1 }) :=
  ⟨fun h => h ▸ append_to_input_buffer_nl st,
   fun h => h ▸ append_to_input_buffer_cr st,
   fun h1 h2 h3 => append_to_input_buffer_plain st c h1 h2 h3,
   fun h1 h2 h3 => append_to_input_buffer_forced st c h1 h2 h3⟩

/-- C8 witness: feeding `'b'` to an accumulator holding `"a"` (size 1)
appends it without any flush. -/
theorem append_to_input_buffer_flush_rules_witness :
    append_to_input_buffer ⟨['a'], 1, [], [], true⟩ 'b' = ⟨['a', 'b'], 2, [], [], true⟩ := by
  have h := (append_to_input_buffer_flush_rules ⟨['a'], 1, [], [], true⟩ 'b').2.2.1
      (by decide) (by decide) (by decide)
  simpa using h

lemma textOf_withText (mb : MessageBuffer) (s : List Char) : textOf (withText mb s) = s := by
  cases mb <;> rfl

lemma append_to_send_buffer_nil (m : MessageBuffer) : append_to_send_buffer [] m = [m] := by
  simp [append_to_send_buffer]

lemma queueBounded_append (q : List MessageBuffer) (msg : MessageBuffer)
    (hq : QueueBounded q) (hm : (textOf msg).length ≤ 4096) :
    QueueBounded (append_to_send_buffer q msg) := by
  intro mb hmb
  unfold append_to_send_buffer at hmb
  split at hmb
  · rcases List.mem_append.mp hmb with h | h
    · exact hq _ h
    · simp at h
      subst h
      exact hm
  · cases msg with
    | Newline s =>
        rcases List.mem_append.mp hmb with h | h
        · exact hq _ h
        · simp at h
          subst h
          exact hm
    | CarriageReturn s =>
        rcases hgl : q.getLast? with _ | last_elem
        · rw [hgl] at hmb
          rcases List.mem_append.mp hmb with h | h
          · exact hq _ h
          · simp at h
            subst h
            exact hm
        · rw [hgl] at hmb
          rcases List.mem_append.mp hmb with h | h
          · exact hq _ (List.dropLast_subset q h)
          · simp at h
            subst h
            rw [textOf_withText]
            exact hm

lemma convert_to_message_queue (st : ProcessorState) :
    (convert_to_message st).message_buffer
      = append_to_send_buffer st.message_buffer
          (if (scanBuffer st.input_buffer).2 then
              MessageBuffer.CarriageReturn (scanBuffer st.input_buffer).1
            else MessageBuffer.Newline (scanBuffer st.input_buffer).1) := rfl

lemma textOf_tag (x : List Char) (b : Bool) :
    textOf (if b then MessageBuffer.CarriageReturn x else MessageBuffer.Newline x) = x := by
  cases b <;> rfl

lemma inv_convert (st : ProcessorState) (hb : st.input_buffer.length ≤ 4096)
    (hq : QueueBounded st.message_buffer) : Inv (convert_to_message st) := by
  refine ⟨?_, rfl, by rw [convert_to_message_size]; omega⟩
  rw [convert_to_message_queue]
  apply queueBounded_append _ _ hq
  rw [textOf_tag, scanBuffer_eq]
  exact le_trans (List.length_filter_le _ _) hb

lemma inv_append_to_input_buffer (st : ProcessorState) (c : Char) (h : Inv st) :
    Inv (append_to_input_buffer st c) := by
  obtain ⟨hq, hlen, hsz⟩ := h
  by_cases h1 : c = '\n'
  · subst h1
    rw [append_to_input_buffer_nl]
    exact inv_convert st (by omega) hq
  by_cases h2 : c = '\r'
  · subst h2
    rw [append_to_input_buffer_cr]
    have hc := inv_convert st (by omega) hq
    exact ⟨hc.1, rfl, by show (1 : Nat) ≤ 4095; omega⟩
  by_cases h3 : st.input_buffer_size + 1 < 4096
  · rw [append_to_input_buffer_plain st c h1 h2 h3]
    exact ⟨hq, by simp [hlen], by show st.input_buffer_size + 1 ≤ 4095; omega⟩
  · rw [append_to_input_buffer_forced st c h1 h2 (by omega)]
    apply inv_convert
    · simp [hlen]
      omega
    · exact hq

lemma inv_feedAll (cs : List Char) : ∀ st : ProcessorState, Inv st → Inv (feedAll st cs) := by
  induction cs with
  | nil => intro st h; exact h
  | cons c cs ih => intro st h; exact ih _ (inv_append_to_input_buffer st c h)

lemma inv_initialState : Inv initialState :=
  ⟨fun _ h => absurd h (List.not_mem_nil _), rfl, by show (0 : Nat) ≤ 4095; omega⟩

lemma combineLoop_length_le :
    ∀ (q : List MessageBuffer) (m : List Char) (n : Nat),
      n = m.length → m.length ≤ 4096 → ((combineLoop q m n).1).length ≤ 4096 := by
  intro q
  induction q with
  | nil =>
      intro m n _ hm
      simpa [combineLoop] using hm
  | cons hd rest ih =>
      intro m n hn hm
      cases hd with
      | Newline msg =>
          unfold combineLoop
          split
          · simpa using hm
          · rename_i hlt
            apply ih
            · simp
              omega
            · simp
              omega
      | CarriageReturn msg =>
          unfold combineLoop
          exact ih m n hn hm

lemma combine_messages_le (q : List MessageBuffer) (b : MessageBuffer)
    (rest : List MessageBuffer) (hq : QueueBounded q)
    (h : combine_messages q = some (b, rest)) : (textOf b).length ≤ 4096 := by
  cases q with
  | nil => simp [combine_messages] at h
  | cons hd tl =>
      cases hd with
      | CarriageReturn msg =>
          have hb : b = MessageBuffer.CarriageReturn msg := by
            simp [combine_messages] at h
            exact h.1.symm
          subst hb
          exact hq _ (List.mem_cons_self _ _)
      | Newline msg =>
          have hb : b = MessageBuffer.Newline (combineLoop tl msg msg.length).1 := by
            simp [combine_messages] at h
            exact h.1.symm
          subst hb
          have hmsg : msg.length ≤ 4096 := by
            simpa [textOf] using hq _ (List.mem_cons_self _ _)
          simpa [textOf] using combineLoop_length_le tl msg msg.length rfl hmsg

lemma feed_replicate : ∀ k : Nat, k ≤ 4095 →
    feedAll initialState (List.replicate k 'a')
      = { input_buffer := List.replicate k 'a', input_buffer_size := k,
          message_buffer := [], signals := [], handle := true } := by
  intro k
  induction k with
  | zero => intro _; rfl
  | succ n ih =>
      intro hk
      have hmid := ih (by omega)
      unfold feedAll at hmid ⊢
      rw [List.replicate_succ', List.foldl_append, hmid]
      simp only [List.foldl_cons, List.foldl_nil]
      rw [append_to_input_buffer_plain _ 'a' (by decide) (by decide)
        (by show n + 1 < 4096; omega)]

lemma replicate_4096_split : List.replicate 4096 'a' = List.replicate 4095 'a' ++ ['a'] := by
  have h := List.replicate_succ' 4095 'a'
  norm_num at h
  exact h

lemma convert_to_message_eq (st : ProcessorState) :
    convert_to_message st
      = { input_buffer := [], input_buffer_size := 0,
          message_buffer := append_to_send_buffer st.message_buffer
            (if (scanBuffer st.input_buffer).2 then
                MessageBuffer.CarriageReturn (scanBuffer st.input_buffer).1
              else MessageBuffer.Newline (scanBuffer st.input_buffer).1),
          signals := st.signals ++ [BufferChangeEvent.NewElement],
          handle := st.handle } := rfl

lemma scanBuffer_fst (l : List Char) :
    (scanBuffer l).1 = l.filter (fun c => decide (c ≠ '\r')) := by
  rw [scanBuffer_eq]

lemma scanBuffer_snd (l : List Char) :
    (scanBuffer l).2 = decide ('\r' ∈ l) := by
  rw [scanBuffer_eq]

lemma convert_no_cr (st : ProcessorState) (h : ¬ ('\r' ∈ st.input_buffer)) :
    convert_to_message st
      = { input_buffer := [], input_buffer_size := 0,
          message_buffer := append_to_send_buffer st.message_buffer
              (MessageBuffer.Newline st.input_buffer),
          signals := st.signals ++ [BufferChangeEvent.NewElement],
          handle := st.handle } := by
  have hfil : st.input_buffer.filter (fun c => decide (c ≠ '\r')) = st.input_buffer := by
    rw [List.filter_eq_self]
    intro x hx
    have hne : x ≠ '\r' := fun hh => h (hh ▸ hx)
    simpa using hne
  have hdec : decide ('\r' ∈ st.input_buffer) = false := decide_eq_false h
  rw [convert_to_message_eq, scanBuffer_fst, scanBuffer_snd, hdec, hfil]
  simp

lemma feed_replicate_4096 :
    feedAll initialState (List.replicate 4096 'a')
      = { input_buffer := [], input_buffer_size := 0,
          message_buffer := [MessageBuffer.Newline (List.replicate 4096 'a')],
          signals := [BufferChangeEvent.NewElement], handle := true } := by
  have hmid := feed_replicate 4095 (by omega)
  have hmem : ¬ ('\r' ∈ List.replicate 4095 'a' ++ ['a']) := by
    intro hx
    rcases List.mem_append.mp hx with h | h
    · exact absurd (List.mem_replicate.mp h).2 (by decide)
    · simp at h
  unfold feedAll at hmid ⊢
  rw [replicate_4096_split, List.foldl_append, hmid]
  simp only [List.foldl_cons, List.foldl_nil]
  rw [append_to_input_buffer_forced _ 'a' (by decide) (by decide)
    (by show 4095 + 1 ≥ 4096; omega)]
  rw [convert_no_cr _ hmem]
  rfl

/-- C4, counterexample.  The claim caps every batch at 4095 codepoints.
Feeding 4096 plain characters to the segmenter forces a length flush
producing a single `Newline` segment of 4096 codepoints, and
`dequeue_batch` returns it unmerged: a batch of 4096 codepoints, one
more than the claimed bound. -/
theorem combine_messages_batch_reaches_4096 :
    combine_messages (feedAll initialState (List.replicate 4096 'a')).message_buffer
      = some (MessageBuffer.Newline (List.replicate 4096 'a'), []) ∧
    ¬ ((textOf (MessageBuffer.Newline (List.replicate 4096 'a'))).length ≤ 4095) := by
  constructor
  · rw [feed_replicate_4096]
    rfl
  · rw [show textOf (MessageBuffer.Newline (List.replicate 4096 'a'))
        = List.replicate 4096 'a' from rfl, List.length_replicate]
    omega

/-- C4, amended.  For every character sequence fed through the
segmenter, every batch returned by `combine_messages` — merged text with
its inserted `'\n'` separators — contains at most 4096 codepoints (the
platform cap): merging keeps the combined length at most 4095, and an
unmerged segment never exceeds the segmenter's 4096-character forced
flush. -/
theorem segmenter_batches_le_4096 (cs : List Char) (b : MessageBuffer)
    (rest : List MessageBuffer)
    (h : combine_messages (feedAll initialState cs).message_buffer = some (b, rest)) :
    (textOf b).length ≤ 4096 :=
  combine_messages_le _ b rest (inv_feedAll cs initialState inv_initialState).1 h

/-- C4 witness: feeding `"a\n"` yields the single batch `"a"`, of
length 1 ≤ 4096. -/
theorem segmenter_batches_le_4096_witness :
    (textOf (MessageBuffer.Newline ['a'])).length ≤ 4096 :=
  segmenter_batches_le_4096 ['a', '\n'] (MessageBuffer.Newline ['a']) [] (by decide)

end Teleecho
